import Mathlib

/-!
Verification of the slide-packing core of the PPT-generation repository.

The algorithmic kernel of the repository is `distribute_paragraphs_to_slides`
(module level in `main.py`, a byte-identical copy in `test.py`, and a method
variant `RallyReportGenerator.distribute_paragraphs_to_slides` in `main.py`):
a first-fit bin-packing routine over paragraph line counts.

The Python code is embedded shallowly:
* Python ints become `Int`; list indices become `Nat`.
* `sorted(range(n), key=lambda i: w[i], reverse=True)` is Python's stable
  sort by descending weight.  It is modelled by `List.insertionSort` with the
  non-strict "weight at least" relation, which is likewise a stable sort, so
  it computes the same list (stable sorts with the same comparison agree).
* The parallel mutable lists `slides` / `remaining_lines` become a pair of
  lists threaded through a fold; the inner `for i in range(len(slides))`
  scan with `break` becomes the recursion `placeFirstFit`.
-/

namespace PPTGen

/-- The relation Python's `sorted(range(n), key=lambda i: w[i], reverse=True)`
sorts by: index `i` may come before `j` when `w[j] ≤ w[i]`.
Out-of-range reads default to `0`; the algorithm only ever sorts in-range
indices, so the default is never observed. -/
def weightGE (paragraph_lengths : List Int) (i j : Nat) : Prop :=
  paragraph_lengths.getD j 0 ≤ paragraph_lengths.getD i 0

instance (paragraph_lengths : List Int) : DecidableRel (weightGE paragraph_lengths) :=
  fun i j => inferInstanceAs (Decidable (_ ≤ _))

/-- `sorted(range(len(paragraph_lengths)), key=lambda i: paragraph_lengths[i], reverse=True)`
from `main.py` line 720: indices sorted by descending weight, stable on ties
(Python's `sorted` is stable; `List.insertionSort` is the stable sort of the
same comparison). -/
def sortedIndices (paragraph_lengths : List Int) : List Nat :=
  List.insertionSort (weightGE paragraph_lengths) (List.range paragraph_lengths.length)

/-- The inner loop of `distribute_paragraphs_to_slides` (`main.py` lines
727-733): scan the open slides in creation order and put `index` into the
first slide whose remaining line budget is at least `length`, decrementing
that budget; `none` when no slide fits (`placed` stays false in the Python). -/
def placeFirstFit (index : Nat) (length : Int) :
    List (List Nat) → List Int → Option (List (List Nat) × List Int)
  | s :: ss, r :: rs =>
    if length ≤ r then
      some ((s ++ [index]) :: ss, (r - length) :: rs)
    else
      match placeFirstFit index length ss rs with
      | some (ss', rs') => some (s :: ss', r :: rs')
      | none => none
  | _, _ => none

/-- One iteration of the outer `for index in paragraph_indices` loop
(`main.py` lines 724-735): place by first fit, else open a new slide with
remaining budget `lines_per_slide - length`. -/
def packStep (lines_per_slide : Int) (paragraph_lengths : List Int)
    (st : List (List Nat) × List Int) (index : Nat) : List (List Nat) × List Int :=
  let length := paragraph_lengths.getD index 0
  match placeFirstFit index length st.1 st.2 with
  | some st' => st'
  | none => (st.1 ++ [[index]], st.2 ++ [lines_per_slide - length])

/-- The final state of the `slides` / `remaining_lines` pair after the outer
loop of `distribute_paragraphs_to_slides`. -/
def packState (paragraph_lengths : List Int) (lines_per_slide : Int) :
    List (List Nat) × List Int :=
  (sortedIndices paragraph_lengths).foldl
    (packStep lines_per_slide paragraph_lengths) ([], [])

/-- `distribute_paragraphs_to_slides` at `main.py` lines 719-737: the list of
slides, each the list of original paragraph indices assigned to it, in slide
creation order. -/
def distribute_paragraphs_to_slides (paragraph_lengths : List Int)
    (lines_per_slide : Int) : List (List Nat) :=
  (packState paragraph_lengths lines_per_slide).1

/-- Total line weight of the paragraphs assigned to one slide. -/
def slideWeight (paragraph_lengths : List Int) (s : List Nat) : Int :=
  (s.map (fun i => paragraph_lengths.getD i 0)).sum

end PPTGen

namespace TestScript

/-! The byte-identical copy of `distribute_paragraphs_to_slides` at
`test.py` lines 1-19, embedded separately so the copies can be compared. -/

/-- The sort of `test.py` line 2, identical to `main.py` line 720. -/
def sortedIndices (paragraph_lengths : List Int) : List Nat :=
  List.insertionSort (PPTGen.weightGE paragraph_lengths)
    (List.range paragraph_lengths.length)

/-- The inner first-fit scan of `test.py` lines 8-13. -/
def placeFirstFit (index : Nat) (length : Int) :
    List (List Nat) → List Int → Option (List (List Nat) × List Int)
  | s :: ss, r :: rs =>
    if length ≤ r then
      some ((s ++ [index]) :: ss, (r - length) :: rs)
    else
      match placeFirstFit index length ss rs with
      | some (ss', rs') => some (s :: ss', r :: rs')
      | none => none
  | _, _ => none

/-- One iteration of the outer loop of `test.py` lines 6-17. -/
def packStep (lines_per_slide : Int) (paragraph_lengths : List Int)
    (st : List (List Nat) × List Int) (index : Nat) : List (List Nat) × List Int :=
  let length := paragraph_lengths.getD index 0
  match placeFirstFit index length st.1 st.2 with
  | some st' => st'
  | none => (st.1 ++ [[index]], st.2 ++ [lines_per_slide - length])

/-- `distribute_paragraphs_to_slides` at `test.py` lines 1-19. -/
def distribute_paragraphs_to_slides (paragraph_lengths : List Int)
    (lines_per_slide : Int) : List (List Nat) :=
  ((sortedIndices paragraph_lengths).foldl
    (packStep lines_per_slide paragraph_lengths) ([], [])).1

end TestScript

namespace Rally

/-- A milestone record as consumed by
`RallyReportGenerator.distribute_paragraphs_to_slides` (`main.py` line 310):
a dict with keys `"Milestone"`, `"len"` and `"us"` built at
`main.py` lines 292-295. -/
structure Milestone where
  milestone : String
  len : Int
  us : List String
deriving Inhabited, DecidableEq

/-- The sort of `main.py` line 312 (inside the method), identical in form to
`main.py` line 720. -/
def sortedIndices (paragraph_lengths : List Int) : List Nat :=
  List.insertionSort (PPTGen.weightGE paragraph_lengths)
    (List.range paragraph_lengths.length)

/-- The inner first-fit scan of `main.py` lines 318-323 (inside the method). -/
def placeFirstFit (index : Nat) (length : Int) :
    List (List Nat) → List Int → Option (List (List Nat) × List Int)
  | s :: ss, r :: rs =>
    if length ≤ r then
      some ((s ++ [index]) :: ss, (r - length) :: rs)
    else
      match placeFirstFit index length ss rs with
      | some (ss', rs') => some (s :: ss', r :: rs')
      | none => none
  | _, _ => none

/-- One iteration of the outer loop of `main.py` lines 315-326. -/
def packStep (lines_per_slide : Int) (paragraph_lengths : List Int)
    (st : List (List Nat) × List Int) (index : Nat) : List (List Nat) × List Int :=
  let length := paragraph_lengths.getD index 0
  match placeFirstFit index length st.1 st.2 with
  | some st' => st'
  | none => (st.1 ++ [[index]], st.2 ++ [lines_per_slide - length])

/-- The `slides` list of index lists computed by the method body,
`main.py` lines 311-326: paragraph lengths are the `len` fields of the
milestone records, then the same sort-and-first-fit loop as the module-level
function. -/
def methodSlides (milestone_info : List Milestone) (lines_per_slide : Int) :
    List (List Nat) :=
  let paragraph_lengths := milestone_info.map (fun i => i.len)
  ((sortedIndices paragraph_lengths).foldl
    (packStep lines_per_slide paragraph_lengths) ([], [])).1

/-- `RallyReportGenerator.distribute_paragraphs_to_slides`, `main.py` lines
310-333: the packed index slides of `methodSlides`, each mapped back to the
milestone records (`main.py` lines 328-332, with the defensive
`if index < len(milestone_info)` guard of line 331). -/
def RallyReportGenerator.distribute_paragraphs_to_slides
    (milestone_info : List Milestone) (lines_per_slide : Int) :
    List (List Milestone) :=
  (methodSlides milestone_info lines_per_slide).map
    (fun indices =>
      (indices.filter (fun index => index < milestone_info.length)).map
        (fun index => milestone_info.getD index default))

end Rally

namespace Spec

/-! The packer exactly as worded by the specification (section 4.1), used to
settle the claim that the code follows the spec's first-fit-decreasing
algorithm.  These definitions are written from the spec's words, not from
the source. -/

/-- Spec step 1: "Sort item indices by descending weight (stable on ties,
i.e., original relative order preserved among equal weights)": index `i`
precedes `j` when its weight is strictly larger, or on equal weights when it
occurs no later in the input. -/
def sortKey (weights : List Int) (i j : Nat) : Prop :=
  weights.getD j 0 < weights.getD i 0 ∨
    (weights.getD i 0 = weights.getD j 0 ∧ i ≤ j)

instance (weights : List Int) : DecidableRel (sortKey weights) :=
  fun i j => inferInstanceAs (Decidable (_ ∨ _))

/-- The item indices in the spec's processing order. -/
def sortedIndices (weights : List Int) : List Nat :=
  List.insertionSort (sortKey weights) (List.range weights.length)

/-- Spec step 3: "scan open slides in creation order; place the item in the
first slide whose remaining capacity is ≥ the item's weight; decrement that
slide's remaining capacity by the weight."  A slide is a pair of its item
list and its remaining capacity; `none` when no open slide fits. -/
def place (index : Nat) (weight : Int) (slides : List (List Nat × Int)) :
    Option (List (List Nat × Int)) :=
  (slides.findIdx? (fun sl => weight ≤ sl.2)).map
    (fun k => slides.modify (fun sl => (sl.1 ++ [index], sl.2 - weight)) k)

/-- Spec steps 3-4 for a single item: first fit, else "open a new slide,
place the item there, and set its remaining capacity = capacity − weight
(may go negative if weight > capacity; this is accepted, not an error)". -/
def step (capacity : Int) (weights : List Int)
    (slides : List (List Nat × Int)) (index : Nat) : List (List Nat × Int) :=
  let weight := weights.getD index 0
  match place index weight slides with
  | some slides' => slides'
  | none => slides ++ [([index], capacity - weight)]

/-- The whole spec algorithm (steps 1-5): fold the per-item step over the
sorted indices and "return slides as lists of original indices, in
slide-creation order". -/
def distribute (weights : List Int) (capacity : Int) : List (List Nat) :=
  ((sortedIndices weights).foldl (step capacity weights) []).map Prod.fst

end Spec

namespace PPTGen

/-- The loop invariant of `distribute_paragraphs_to_slides`, relating the
`slides` / `remaining_lines` pair to the list `processed` of indices handled
so far: the two lists run in lockstep (`remaining_lines[k]` is the capacity
minus the weight already on slide `k`), every slide is non-empty, lists its
indices in placement order (a sublist of the processing order), respects the
capacity unless it is a single oversized item, and the slides' first items
appear in creation order within the processing order. -/
def PackInv (cap : Int) (w : List Int) (processed : List Nat)
    (st : List (List Nat) × List Int) : Prop :=
  st.2 = st.1.map (fun s => cap - slideWeight w s) ∧
  (∀ s ∈ st.1, s ≠ [] ∧ s.Sublist processed ∧
    (slideWeight w s ≤ cap ∨ ∃ i, s = [i] ∧ cap < w.getD i 0)) ∧
  (st.1.map (fun s => s.headI)).Sublist processed

instance (w : List Int) : IsTotal Nat (weightGE w) :=
  ⟨fun i j => (le_total (w.getD j 0) (w.getD i 0)).imp id id⟩

instance (w : List Int) : IsTrans Nat (weightGE w) :=
  ⟨fun _ _ _ hab hbc => le_trans hbc hab⟩

instance (w : List Int) : IsTotal Nat (Spec.sortKey w) :=
  ⟨fun i j => by
    unfold Spec.sortKey
    rcases lt_trichotomy (w.getD i 0) (w.getD j 0) with h | h | h
    · exact Or.inr (Or.inl h)
    · rcases Nat.le_total i j with hij | hij
      · exact Or.inl (Or.inr ⟨h, hij⟩)
      · exact Or.inr (Or.inr ⟨h.symm, hij⟩)
    · exact Or.inl (Or.inl h)⟩

instance (w : List Int) : IsTrans Nat (Spec.sortKey w) :=
  ⟨fun a b c hab hbc => by
    unfold Spec.sortKey at *
    rcases hab with h | ⟨h1, h2⟩ <;> rcases hbc with h' | ⟨h1', h2'⟩
    · exact Or.inl (h'.trans h)
    · exact Or.inl (h1' ▸ h)
    · exact Or.inl (h1 ▸ h')
    · exact Or.inr ⟨h1.trans h1', h2.trans h2'⟩⟩

instance (w : List Int) : IsAntisymm Nat (Spec.sortKey w) :=
  ⟨fun a b hab hba => by
    unfold Spec.sortKey at *
    rcases hab with h | ⟨_, h2⟩ <;> rcases hba with h' | ⟨_, h2'⟩
    · exact absurd (h.trans h') (lt_irrefl _)
    · omega
    · omega
    · omega⟩

end PPTGen

namespace PPTGen

/-! ### Properties of the index sort -/

theorem sortedIndices_perm (w : List Int) :
    (sortedIndices w).Perm (List.range w.length) :=
  List.perm_insertionSort _ _

theorem sortedIndices_nodup (w : List Int) : (sortedIndices w).Nodup :=
  (sortedIndices_perm w).nodup_iff.mpr (List.nodup_range _)

theorem sortedIndices_sorted (w : List Int) :
    (sortedIndices w).Pairwise (weightGE w) :=
  List.sorted_insertionSort _ _

theorem mem_sortedIndices {w : List Int} {i : Nat} :
    i ∈ sortedIndices w ↔ i < w.length := by
  rw [(sortedIndices_perm w).mem_iff, List.mem_range]

/-- Two adjacent naturals in ascending order form a sublist of `range n`. -/
theorem pair_sublist_range {a b n : Nat} (hab : a < b) (hb : b < n) :
    [a, b].Sublist (List.range n) := by
  have h1 : List.range n =
      List.range (a + 1) ++ (List.range (n - (a + 1))).map (a + 1 + ·) := by
    rw [← List.range_add]; congr 1; omega
  rw [h1]
  have ha : [a].Sublist (List.range (a + 1)) :=
    List.singleton_sublist.mpr (List.mem_range.mpr (by omega))
  have hb' : [b].Sublist ((List.range (n - (a + 1))).map (a + 1 + ·)) :=
    List.singleton_sublist.mpr
      (List.mem_map.mpr ⟨b - (a + 1), List.mem_range.mpr (by omega), by omega⟩)
  exact List.Sublist.append ha hb'

/-- In a duplicate-free list two distinct elements occur in only one relative
order. -/
theorem duo_sublist (l : List Nat) (hl : l.Nodup) (a b : Nat) (hne : a ≠ b)
    (h1 : [a, b].Sublist l) (h2 : [b, a].Sublist l) : False := by
  induction l with
  | nil => simp at h1
  | cons x t ih =>
    rw [List.nodup_cons] at hl
    cases h1 with
    | cons _ h1' =>
      cases h2 with
      | cons _ h2' => exact ih hl.2 h1' h2'
      | cons₂ _ h2' =>
        exact hl.1 (h1'.subset (by simp))
    | cons₂ _ h1' =>
      cases h2 with
      | cons _ h2' => exact hl.1 (h2'.subset (by simp))
      | cons₂ _ h2' => exact hne rfl

/-- The stable sort refines the strict order of the spec: along
`sortedIndices` the weights strictly decrease or, being equal, the original
positions increase. -/
theorem sortedIndices_pairwise_sortKey (w : List Int) :
    (sortedIndices w).Pairwise (Spec.sortKey w) := by
  rw [List.pairwise_iff_forall_sublist]
  intro a b hab
  have hw : weightGE w a b :=
    List.pairwise_iff_forall_sublist.mp (sortedIndices_sorted w) hab
  rcases eq_or_lt_of_le hw with heq | hlt
  · rcases le_or_lt a b with hle | hba
    · exact Or.inr ⟨heq.symm, hle⟩
    · exfalso
      have hbmem : b ∈ sortedIndices w := hab.subset (by simp)
      have hamem : a ∈ sortedIndices w := hab.subset (by simp)
      have hba' : [b, a].Sublist (List.range w.length) :=
        pair_sublist_range hba (mem_sortedIndices.mp hamem)
      have hstable : [b, a].Sublist (sortedIndices w) :=
        List.pair_sublist_insertionSort (le_of_eq heq.symm) hba'
      exact duo_sublist _ (sortedIndices_nodup w) a b (Nat.ne_of_gt hba) hab hstable
  · exact Or.inl hlt

/-- The source's stable descending sort is the spec's sort: sorting by the
non-strict weight comparison with a stable algorithm equals sorting by the
strict (weight, original position) lexicographic order. -/
theorem sortedIndices_eq_spec (w : List Int) :
    sortedIndices w = Spec.sortedIndices w :=
  List.eq_of_perm_of_sorted
    ((sortedIndices_perm w).trans (List.perm_insertionSort _ _).symm)
    (sortedIndices_pairwise_sortKey w)
    (List.sorted_insertionSort _ _)

/-! ### Properties of the first-fit loop -/

/-- A successful first-fit placement appends the new index to one slide, so
joining the slides afterwards is a permutation of the new index together
with the old contents. -/
theorem placeFirstFit_join {x : Nat} {L : Int} :
    ∀ {ss : List (List Nat)} {rs : List Int} {p},
      placeFirstFit x L ss rs = some p → p.1.flatten.Perm (x :: ss.flatten)
  | [], rs, p => by intro h; cases rs <;> simp [placeFirstFit] at h
  | s :: ss, [], p => by intro h; simp [placeFirstFit] at h
  | s :: ss, r :: rs, p => by
    intro h
    rw [placeFirstFit] at h
    by_cases hle : L ≤ r
    · rw [if_pos hle] at h
      cases h
      exact (List.perm_append_singleton x s).append_right ss.flatten
    · rw [if_neg hle] at h
      cases hrec : placeFirstFit x L ss rs with
      | none => rw [hrec] at h; cases h
      | some q =>
        rw [hrec] at h
        cases h
        exact ((placeFirstFit_join hrec).append_left s).trans List.perm_middle

/-- Each loop iteration adds exactly the processed index to the joined
contents, up to permutation. -/
theorem packStep_join (cap : Int) (w : List Int)
    (st : List (List Nat) × List Int) (x : Nat) :
    (packStep cap w st x).1.flatten.Perm (x :: st.1.flatten) := by
  cases h : placeFirstFit x (w.getD x 0) st.1 st.2 with
  | some p =>
    simp only [packStep, h]
    exact placeFirstFit_join h
  | none =>
    simp only [packStep, h, List.flatten_append, List.flatten_cons, List.flatten_nil,
      List.append_nil]
    exact List.perm_append_singleton x st.1.flatten

theorem foldl_packStep_join (cap : Int) (w : List Int) :
    ∀ (l : List Nat) (st : List (List Nat) × List Int),
      ((l.foldl (packStep cap w) st).1.flatten).Perm (l ++ st.1.flatten)
  | [], st => by simp
  | x :: l, st => by
    rw [List.foldl_cons]
    exact ((foldl_packStep_join cap w l _).trans
      ((packStep_join cap w st x).append_left l)).trans List.perm_middle

/-- Joining the plan gives back exactly the input index set, up to order. -/
theorem distribute_join_perm (w : List Int) (cap : Int) :
    (distribute_paragraphs_to_slides w cap).flatten.Perm (List.range w.length) := by
  have h := foldl_packStep_join cap w (sortedIndices w) ([], [])
  simp only [List.flatten_nil, List.append_nil] at h
  exact h.trans (sortedIndices_perm w)

/-- Shape of a successful first-fit placement when the remaining-capacity
list is computed from the slides by a function `F` (as the loop invariant
guarantees): some slide `s` with `L ≤ F s` gets `x` appended and its
capacity decremented, everything else is untouched. -/
theorem placeFirstFit_map_some {x : Nat} {L : Int} {F : List Nat → Int} :
    ∀ {ss : List (List Nat)} {p},
      placeFirstFit x L ss (ss.map F) = some p →
      ∃ s₁ s s₂, ss = s₁ ++ s :: s₂ ∧ L ≤ F s ∧
        p.1 = s₁ ++ (s ++ [x]) :: s₂ ∧
        p.2 = s₁.map F ++ (F s - L) :: s₂.map F
  | [], p => by intro h; simp [placeFirstFit] at h
  | s :: ss, p => by
    intro h
    rw [List.map_cons, placeFirstFit] at h
    by_cases hle : L ≤ F s
    · rw [if_pos hle] at h
      cases h
      exact ⟨[], s, ss, rfl, hle, rfl, rfl⟩
    · rw [if_neg hle] at h
      cases hrec : placeFirstFit x L ss (ss.map F) with
      | none => rw [hrec] at h; cases h
      | some q =>
        rw [hrec] at h
        cases h
        obtain ⟨s₁, t, s₂, hss, hfit, h1, h2⟩ := placeFirstFit_map_some hrec
        exact ⟨s :: s₁, t, s₂, by rw [hss, List.cons_append], hfit,
          by rw [List.cons_append, h1], by rw [List.map_cons, List.cons_append, h2]⟩

theorem headI_append {s : List Nat} (h : s ≠ []) (x : Nat) :
    (s ++ [x]).headI = s.headI := by
  cases s with
  | nil => exact absurd rfl h
  | cons a t => rfl

theorem slideWeight_append (w : List Int) (s : List Nat) (x : Nat) :
    slideWeight w (s ++ [x]) = slideWeight w s + w.getD x 0 := by
  simp [slideWeight]

/-- The loop invariant is preserved by one iteration of the outer loop. -/
theorem packInv_step {cap : Int} {w : List Int} {processed : List Nat}
    {st : List (List Nat) × List Int} {x : Nat} (h : PackInv cap w processed st) :
    PackInv cap w (processed ++ [x]) (packStep cap w st x) := by
  obtain ⟨hmap, hs, hheads⟩ := h
  cases hplace : placeFirstFit x (w.getD x 0) st.1 st.2 with
  | none =>
    simp only [packStep, hplace]
    refine ⟨?_, ?_, ?_⟩
    · rw [hmap, List.map_append, List.map_cons, List.map_nil]
      simp [slideWeight]
    · intro s hsmem
      rcases List.mem_append.mp hsmem with hold | hnew
      · obtain ⟨hne, hsub, hcapb⟩ := hs s hold
        exact ⟨hne, hsub.trans (List.sublist_append_left processed [x]), hcapb⟩
      · rw [List.mem_singleton] at hnew
        subst hnew
        refine ⟨by simp, List.sublist_append_right processed [x], ?_⟩
        rcases le_or_lt (w.getD x 0) cap with hle | hlt
        · exact Or.inl (by simpa [slideWeight] using hle)
        · exact Or.inr ⟨x, rfl, hlt⟩
    · rw [List.map_append, List.map_cons, List.map_nil]
      exact List.Sublist.append hheads (by simp)
  | some p =>
    simp only [packStep, hplace]
    rw [hmap] at hplace
    obtain ⟨s₁, s, s₂, hss, hfit, hp1, hp2⟩ := placeFirstFit_map_some hplace
    have hsmem : s ∈ st.1 := by rw [hss]; exact List.mem_append_right _ (List.mem_cons_self s s₂)
    obtain ⟨hsne, hssub, _⟩ := hs s hsmem
    refine ⟨?_, ?_, ?_⟩
    · rw [hp1, hp2, List.map_append, List.map_cons]
      have : cap - slideWeight w (s ++ [x]) = cap - slideWeight w s - w.getD x 0 := by
        rw [slideWeight_append]; ring
      rw [this]
    · intro t htmem
      rw [hp1] at htmem
      rcases List.mem_append.mp htmem with h1 | h2
      · obtain ⟨hne, hsub, hcapb⟩ := hs t (by rw [hss]; exact List.mem_append_left _ h1)
        exact ⟨hne, hsub.trans (List.sublist_append_left processed [x]), hcapb⟩
      · rcases List.mem_cons.mp h2 with heq | h3
        · subst heq
          refine ⟨by simp, List.Sublist.append hssub (List.Sublist.refl [x]), Or.inl ?_⟩
          rw [slideWeight_append]
          omega
        · obtain ⟨hne, hsub, hcapb⟩ := hs t
            (by rw [hss]; exact List.mem_append_right _ (List.mem_cons_of_mem s h3))
          exact ⟨hne, hsub.trans (List.sublist_append_left processed [x]), hcapb⟩
    · rw [hp1, List.map_append, List.map_cons, headI_append hsne]
      have : s₁.map (fun t => t.headI) ++ s.headI :: s₂.map (fun t => t.headI)
          = st.1.map (fun t => t.headI) := by
        rw [hss, List.map_append, List.map_cons]
      rw [this]
      exact hheads.trans (List.sublist_append_left processed [x])

theorem packInv_foldl {cap : Int} {w : List Int} :
    ∀ (l : List Nat) {processed : List Nat} {st : List (List Nat) × List Int},
      PackInv cap w processed st →
      PackInv cap w (processed ++ l) (l.foldl (packStep cap w) st)
  | [], processed, st => by simpa using id
  | x :: l, processed, st => by
    intro h
    rw [List.foldl_cons]
    have h2 := packInv_foldl l (packInv_step (x := x) h)
    rwa [List.append_assoc, List.singleton_append] at h2

/-- The loop invariant holds of the final state of
`distribute_paragraphs_to_slides`. -/
theorem packInv_packState (w : List Int) (cap : Int) :
    PackInv cap w (sortedIndices w) (packState w cap) := by
  have h0 : PackInv cap w [] ([], []) := by
    refine ⟨rfl, ?_, by simp⟩
    intro s hs
    simp at hs
  simpa using packInv_foldl (sortedIndices w) h0

theorem length_le_sum : ∀ {l : List Nat}, (∀ n ∈ l, 1 ≤ n) → l.length ≤ l.sum
  | [], _ => le_refl 0
  | n :: l, h => by
    rw [List.length_cons, List.sum_cons]
    have h1 := h n (List.mem_cons_self n l)
    have h2 := length_le_sum (fun m hm => h m (List.mem_cons_of_mem n hm))
    omega

/-! ### The source loop is the spec's algorithm -/

/-- The source's parallel-list first-fit scan computes exactly the spec's
"first slide whose remaining capacity is ≥ the weight" placement on the
paired representation. -/
theorem place_spec :
    ∀ (sl : List (List Nat × Int)) (x : Nat) (L : Int),
      placeFirstFit x L (sl.map Prod.fst) (sl.map Prod.snd) =
        (Spec.place x L sl).map (fun sl' => (sl'.map Prod.fst, sl'.map Prod.snd))
  | [], x, L => rfl
  | (s, r) :: tl, x, L => by
    simp only [List.map_cons, placeFirstFit, Spec.place, List.findIdx?_cons,
      List.findIdx?_succ]
    by_cases hle : L ≤ r
    · simp [hle]
    · rw [if_neg hle, if_neg (by simpa using hle), place_spec tl x L]
      simp only [Spec.place]
      cases hidx : tl.findIdx? (fun sl => decide (L ≤ sl.2)) with
      | none => simp
      | some k =>
        simp [List.modify_succ_cons]

/-- One iteration of the source loop matches one spec step on the paired
representation. -/
theorem step_spec (cap : Int) (w : List Int) (sl : List (List Nat × Int)) (x : Nat) :
    packStep cap w (sl.map Prod.fst, sl.map Prod.snd) x =
      ((Spec.step cap w sl x).map Prod.fst, (Spec.step cap w sl x).map Prod.snd) := by
  cases h : Spec.place x (w.getD x 0) sl with
  | some sl' =>
    simp only [packStep, place_spec sl x (w.getD x 0), h, Option.map_some', Spec.step]
  | none =>
    simp only [packStep, place_spec sl x (w.getD x 0), h, Option.map_none', Spec.step,
      List.map_append, List.map_cons, List.map_nil]

theorem foldl_spec (cap : Int) (w : List Int) :
    ∀ (l : List Nat) (sl : List (List Nat × Int)),
      l.foldl (packStep cap w) (sl.map Prod.fst, sl.map Prod.snd) =
        ((l.foldl (Spec.step cap w) sl).map Prod.fst,
         (l.foldl (Spec.step cap w) sl).map Prod.snd)
  | [], sl => rfl
  | x :: l, sl => by
    rw [List.foldl_cons, List.foldl_cons, step_spec]
    exact foldl_spec cap w l _

/-! ### Lemmas for capacities at least the total weight -/

theorem map_getD_range :
    ∀ (w : List Int), (List.range w.length).map (fun i => w.getD i 0) = w
  | [] => rfl
  | a :: t => by
    rw [List.length_cons, List.range_succ_eq_map, List.map_cons, List.map_map]
    have : ((fun i => (a :: t).getD i 0) ∘ Nat.succ) = fun i => t.getD i 0 := rfl
    rw [this, map_getD_range t]
    rfl

/-- The total weight along the processing order is the total weight of the
input. -/
theorem slideWeight_sortedIndices (w : List Int) :
    slideWeight w (sortedIndices w) = w.sum := by
  unfold slideWeight
  rw [List.Perm.sum_eq ((sortedIndices_perm w).map (fun i => w.getD i 0))]
  rw [map_getD_range w]

theorem getD_nonneg {w : List Int} (hw : ∀ y ∈ w, 0 ≤ y) {i : Nat}
    (hi : i < w.length) : 0 ≤ w.getD i 0 := by
  rw [List.getD_eq_getElem w 0 hi]
  exact hw _ (List.getElem_mem hi)

/-- When everything that is left fits into the budget of a single open
slide, the loop keeps appending to that slide. -/
theorem foldl_single_slide (cap : Int) (w : List Int) :
    ∀ (l : List Nat) (s : List Nat),
      (∀ i ∈ l, 0 ≤ w.getD i 0) →
      slideWeight w l ≤ cap - slideWeight w s →
      l.foldl (packStep cap w) ([s], [cap - slideWeight w s]) =
        ([s ++ l], [cap - slideWeight w (s ++ l)])
  | [], s => by intro _ _; simp
  | x :: l, s => by
    intro hpos hsum
    have hxl : slideWeight w (x :: l) = w.getD x 0 + slideWeight w l := by
      simp [slideWeight]
    have hl0 : 0 ≤ slideWeight w l :=
      List.sum_nonneg (by
        intro y hy
        obtain ⟨i, hi, rfl⟩ := List.mem_map.mp hy
        exact hpos i (List.mem_cons_of_mem x hi))
    have hx : w.getD x 0 ≤ cap - slideWeight w s := by omega
    have hstep : packStep cap w ([s], [cap - slideWeight w s]) x =
        ([s ++ [x]], [cap - slideWeight w (s ++ [x])]) := by
      simp only [packStep, placeFirstFit, if_pos hx, slideWeight_append]
      rw [sub_sub]
    rw [List.foldl_cons, hstep,
      foldl_single_slide cap w l (s ++ [x])
        (fun i hi => hpos i (List.mem_cons_of_mem x hi))
        (by rw [slideWeight_append]; omega)]
    simp [List.append_assoc]

/-- With non-negative weights and a capacity at least the total weight, the
plan is at most one slide. -/
theorem distribute_length_le_one (w : List Int) (cap : Int)
    (hw : ∀ y ∈ w, 0 ≤ y) (hsum : w.sum ≤ cap) :
    (distribute_paragraphs_to_slides w cap).length ≤ 1 := by
  unfold distribute_paragraphs_to_slides packState
  cases hl : sortedIndices w with
  | nil => simp
  | cons x l =>
    have hmem : ∀ i ∈ x :: l, 0 ≤ w.getD i 0 := by
      intro i hi
      exact getD_nonneg hw (mem_sortedIndices.mp (hl ▸ hi))
    have htot : slideWeight w (x :: l) ≤ cap := by
      rw [← hl, slideWeight_sortedIndices]; exact hsum
    have hxl : slideWeight w (x :: l) = w.getD x 0 + slideWeight w l := by
      simp [slideWeight]
    have hstep0 : packStep cap w ([], []) x = ([[x]], [cap - slideWeight w [x]]) := by
      simp only [packStep, placeFirstFit, slideWeight]
      simp
    rw [List.foldl_cons, hstep0,
      foldl_single_slide cap w l [x]
        (fun i hi => hmem i (List.mem_cons_of_mem x hi))
        (by
          have hx1 : slideWeight w [x] = w.getD x 0 := by simp [slideWeight]
          omega)]
    simp

/-- A non-empty input always yields at least one slide. -/
theorem distribute_length_pos (w : List Int) (cap : Int) (hw : w ≠ []) :
    1 ≤ (distribute_paragraphs_to_slides w cap).length := by
  by_contra hlen
  have h0 : distribute_paragraphs_to_slides w cap = [] := by
    cases h : distribute_paragraphs_to_slides w cap with
    | nil => rfl
    | cons a t => rw [h] at hlen; simp at hlen
  have hperm := distribute_join_perm w cap
  rw [h0] at hperm
  have hnil : List.range w.length = [] := hperm.symm.eq_nil
  have hlen0 : w.length = 0 := by simpa using congrArg List.length hnil
  exact hw (List.length_eq_zero.mp hlen0)

end PPTGen

/-! ### The three copies of the packing routine agree -/

theorem testPlace_eq (x : Nat) (L : Int) :
    ∀ (ss : List (List Nat)) (rs : List Int),
      TestScript.placeFirstFit x L ss rs = PPTGen.placeFirstFit x L ss rs
  | [], rs => by
    cases rs <;> simp [TestScript.placeFirstFit, PPTGen.placeFirstFit]
  | s :: ss, rs => by
    cases rs with
    | nil => simp [TestScript.placeFirstFit, PPTGen.placeFirstFit]
    | cons r rs =>
      rw [TestScript.placeFirstFit, PPTGen.placeFirstFit, testPlace_eq x L ss rs]

theorem testStep_eq (cap : Int) (w : List Int) (st : List (List Nat) × List Int)
    (x : Nat) : TestScript.packStep cap w st x = PPTGen.packStep cap w st x := by
  simp only [TestScript.packStep, PPTGen.packStep, testPlace_eq]

theorem test_eq_main (w : List Int) (cap : Int) :
    TestScript.distribute_paragraphs_to_slides w cap =
      PPTGen.distribute_paragraphs_to_slides w cap := by
  unfold TestScript.distribute_paragraphs_to_slides
    PPTGen.distribute_paragraphs_to_slides PPTGen.packState
  have hstep : TestScript.packStep cap w = PPTGen.packStep cap w :=
    funext fun st => funext fun x => testStep_eq cap w st x
  have hsort : TestScript.sortedIndices w = PPTGen.sortedIndices w := rfl
  rw [hstep, hsort]

theorem rallyPlace_eq (x : Nat) (L : Int) :
    ∀ (ss : List (List Nat)) (rs : List Int),
      Rally.placeFirstFit x L ss rs = PPTGen.placeFirstFit x L ss rs
  | [], rs => by
    cases rs <;> simp [Rally.placeFirstFit, PPTGen.placeFirstFit]
  | s :: ss, rs => by
    cases rs with
    | nil => simp [Rally.placeFirstFit, PPTGen.placeFirstFit]
    | cons r rs =>
      rw [Rally.placeFirstFit, PPTGen.placeFirstFit, rallyPlace_eq x L ss rs]

theorem rallyStep_eq (cap : Int) (w : List Int) (st : List (List Nat) × List Int)
    (x : Nat) : Rally.packStep cap w st x = PPTGen.packStep cap w st x := by
  simp only [Rally.packStep, PPTGen.packStep, rallyPlace_eq]

theorem rally_slides_eq_main (info : List Rally.Milestone) (cap : Int) :
    Rally.methodSlides info cap =
      PPTGen.distribute_paragraphs_to_slides (info.map (fun m => m.len)) cap := by
  have hstep : Rally.packStep cap (info.map (fun m => m.len)) =
      PPTGen.packStep cap (info.map (fun m => m.len)) :=
    funext fun st => funext fun x => rallyStep_eq cap _ st x
  have hsort : Rally.sortedIndices (info.map (fun m => m.len)) =
      PPTGen.sortedIndices (info.map (fun m => m.len)) := rfl
  simp only [Rally.methodSlides, PPTGen.distribute_paragraphs_to_slides,
    PPTGen.packState, hstep, hsort]

theorem rally_method_eq_main (info : List Rally.Milestone) (cap : Int) :
    Rally.RallyReportGenerator.distribute_paragraphs_to_slides info cap =
      (PPTGen.distribute_paragraphs_to_slides (info.map (fun m => m.len)) cap).map
        (fun indices =>
          (indices.filter (fun index => index < info.length)).map
            (fun index => info.getD index default)) := by
  unfold Rally.RallyReportGenerator.distribute_paragraphs_to_slides
  rw [rally_slides_eq_main]

/-! ### The claims -/

/-- C1: for every list of weights and every capacity, the plan returned by
`distribute_paragraphs_to_slides` is a partition of the input index set:
every index `i < n` occurs exactly once across all slides, and nothing else
occurs. -/
theorem claim1_partition (w : List Int) (cap : Int) :
    (∀ i, i < w.length →
      (PPTGen.distribute_paragraphs_to_slides w cap).flatten.count i = 1) ∧
    (∀ i, i ∈ (PPTGen.distribute_paragraphs_to_slides w cap).flatten →
      i < w.length) := by
  constructor
  · intro i hi
    rw [(PPTGen.distribute_join_perm w cap).count_eq]
    exact List.count_eq_one_of_mem (List.nodup_range _) (List.mem_range.mpr hi)
  · intro i hi
    exact List.mem_range.mp ((PPTGen.distribute_join_perm w cap).subset hi)

theorem claim1_witness :
    (PPTGen.distribute_paragraphs_to_slides [5, 3, 5] 8).flatten.count 2 = 1 :=
  (claim1_partition [5, 3, 5] 8).1 2 (by decide)

/-- C2: with non-negative weights and positive capacity, every slide's total
weight is at most the capacity, except a slide holding a single item whose
weight alone exceeds the capacity.  (The proof does not even need the sign
hypotheses; they are kept because the claim states them.) -/
theorem claim2_capacity (w : List Int) (cap : Int)
    (hw : ∀ y ∈ w, 0 ≤ y) (hcap : 0 < cap) :
    ∀ s ∈ PPTGen.distribute_paragraphs_to_slides w cap,
      PPTGen.slideWeight w s ≤ cap ∨ ∃ i, s = [i] ∧ cap < w.getD i 0 := by
  intro s hs
  exact ((PPTGen.packInv_packState w cap).2.1 s hs).2.2

theorem claim2_witness :
    PPTGen.slideWeight [5, 30, 3] [1] ≤ 8 ∨
      ∃ i, [1] = [i] ∧ (8 : Int) < ([5, 30, 3] : List Int).getD i 0 :=
  claim2_capacity [5, 30, 3] 8 (by decide) (by decide) [1] (by decide)

/-- C3: the module-level `distribute_paragraphs_to_slides` computes exactly
the spec's first-fit-decreasing algorithm: indices sorted by descending
weight with stable ties, each item put into the first open slide (in
creation order) whose remaining capacity is at least its weight, a new slide
opened otherwise with remaining capacity `capacity - weight` (possibly
negative), slides returned in creation order. -/
theorem claim3_follows_spec (w : List Int) (cap : Int) :
    PPTGen.distribute_paragraphs_to_slides w cap = Spec.distribute w cap := by
  unfold PPTGen.distribute_paragraphs_to_slides PPTGen.packState Spec.distribute
  rw [PPTGen.sortedIndices_eq_spec]
  have h := PPTGen.foldl_spec cap w (Spec.sortedIndices w) []
  simp only [List.map_nil] at h
  rw [h]

/-- C4, counterexample: increasing the capacity from 29 to 30 on the weights
`[15, 15, 9, 9, 8, 8, 8, 5, 5, 5]` increases the plan from 3 slides to 4, so
capacity monotonicity fails as stated. -/
theorem claim4_counterexample :
    (29 : Int) ≤ 30 ∧
    ¬ ((PPTGen.distribute_paragraphs_to_slides
          [15, 15, 9, 9, 8, 8, 8, 5, 5, 5] 30).length ≤
        (PPTGen.distribute_paragraphs_to_slides
          [15, 15, 9, 9, 8, 8, 8, 5, 5, 5] 29).length) := by
  decide

/-- C4, amended: capacity monotonicity fails in general (see the
counterexample), but holds whenever the larger capacity admits the whole
input: for non-negative weights with total weight at most `c2`, the plan for
`c2` has at most as many slides as the plan for any capacity `c1`. -/
theorem claim4_amended (w : List Int) (c1 c2 : Int)
    (hw : ∀ y ∈ w, 0 ≤ y) (hsum : w.sum ≤ c2) :
    (PPTGen.distribute_paragraphs_to_slides w c2).length ≤
      (PPTGen.distribute_paragraphs_to_slides w c1).length := by
  cases w with
  | nil => exact le_of_eq rfl
  | cons a t =>
    exact le_trans (PPTGen.distribute_length_le_one (a :: t) c2 hw hsum)
      (PPTGen.distribute_length_pos (a :: t) c1 (by simp))

theorem claim4_amended_witness :
    (PPTGen.distribute_paragraphs_to_slides [1, 2] 5).length ≤
      (PPTGen.distribute_paragraphs_to_slides [1, 2] 1).length :=
  claim4_amended [1, 2] 1 5 (by decide) (by decide)

/-- C5: on weights `[5, 3, 5]` with capacity 8 the plan is exactly two
slides, the first holding indices 0 (first weight-5 item) then 1 (the
weight-3 item), the second holding index 2 (the second weight-5 item). -/
theorem claim5_example :
    PPTGen.distribute_paragraphs_to_slides [5, 3, 5] 8 = [[0, 1], [2]] := by
  decide

/-- C6: `distribute_paragraphs_to_slides` is deterministic — in this pure
embedding the function of weights and capacity can only have one value per
input, so two runs on identical inputs are definitionally identical; in
particular the spec's example input always yields this one fixed multi-slide
plan. -/
theorem claim6_deterministic :
    PPTGen.distribute_paragraphs_to_slides
        [4, 24, 18, 6, 5, 17, 19, 2, 6, 3, 9, 7, 3, 2, 19] 25 =
      [[1], [6, 3], [14, 8], [2, 11], [5, 4, 9], [10, 0, 12, 7, 13]] ∧
    1 < (PPTGen.distribute_paragraphs_to_slides
        [4, 24, 18, 6, 5, 17, 19, 2, 6, 3, 9, 7, 3, 2, 19] 25).length := by
  decide

/-- C7: the empty weight list yields the empty plan for every capacity. -/
theorem claim7_empty (cap : Int) :
    PPTGen.distribute_paragraphs_to_slides [] cap = [] := rfl

/-- C8, counterexample: the claim asserts that the near-duplicate copies of
the packing routine differ on some input; in fact no such input exists —
the `test.py` copy agrees with the module-level function everywhere, and the
method's internal index assignment agrees with the module-level function on
the extracted `len` weights everywhere. -/
theorem claim8_counterexample :
    ¬ ((∃ (w : List Int) (cap : Int),
          TestScript.distribute_paragraphs_to_slides w cap ≠
            PPTGen.distribute_paragraphs_to_slides w cap) ∨
       (∃ (info : List Rally.Milestone) (cap : Int),
          Rally.methodSlides info cap ≠
            PPTGen.distribute_paragraphs_to_slides
              (info.map (fun m => m.len)) cap)) := by
  rintro (⟨w, cap, h⟩ | ⟨info, cap, h⟩)
  · exact h (test_eq_main w cap)
  · exact h (rally_slides_eq_main info cap)

/-- C8, amended: the three near-duplicate implementations have identical
tie-breaking and first-fit scan order — on every input they assign indices
to slides identically: the `test.py` copy equals the module-level function,
the method's internal slide assignment equals the module-level function on
the milestone `len` weights, and the full method is that assignment with
each index mapped back to its milestone record. -/
theorem claim8_amended :
    (∀ (w : List Int) (cap : Int),
      TestScript.distribute_paragraphs_to_slides w cap =
        PPTGen.distribute_paragraphs_to_slides w cap) ∧
    (∀ (info : List Rally.Milestone) (cap : Int),
      Rally.methodSlides info cap =
        PPTGen.distribute_paragraphs_to_slides (info.map (fun m => m.len)) cap) ∧
    (∀ (info : List Rally.Milestone) (cap : Int),
      Rally.RallyReportGenerator.distribute_paragraphs_to_slides info cap =
        (PPTGen.distribute_paragraphs_to_slides (info.map (fun m => m.len)) cap).map
          (fun indices =>
            (indices.filter (fun index => index < info.length)).map
              (fun index => info.getD index default))) :=
  ⟨test_eq_main, rally_slides_eq_main, rally_method_eq_main⟩

/-- C9: every slide of a plan is non-empty (slides are only created together
with the item placed on them), so a plan never has more slides than input
items. -/
theorem claim9_nonempty (w : List Int) (cap : Int) :
    (∀ s ∈ PPTGen.distribute_paragraphs_to_slides w cap, s ≠ []) ∧
    (PPTGen.distribute_paragraphs_to_slides w cap).length ≤ w.length := by
  have hinv := PPTGen.packInv_packState w cap
  constructor
  · intro s hs
    exact (hinv.2.1 s hs).1
  · have hperm := PPTGen.distribute_join_perm w cap
    have hlen : (PPTGen.distribute_paragraphs_to_slides w cap).flatten.length
        = w.length := by simpa using hperm.length_eq
    have hone : ∀ n ∈ (PPTGen.distribute_paragraphs_to_slides w cap).map
        List.length, 1 ≤ n := by
      intro n hn
      obtain ⟨s, hs, rfl⟩ := List.mem_map.mp hn
      exact List.length_pos.mpr (hinv.2.1 s hs).1
    calc (PPTGen.distribute_paragraphs_to_slides w cap).length
        = ((PPTGen.distribute_paragraphs_to_slides w cap).map List.length).length :=
          (List.length_map _ _).symm
      _ ≤ ((PPTGen.distribute_paragraphs_to_slides w cap).map List.length).sum :=
          PPTGen.length_le_sum hone
      _ = (PPTGen.distribute_paragraphs_to_slides w cap).flatten.length :=
          (List.length_flatten _).symm
      _ = w.length := hlen

theorem claim9_witness :
    ([2] : List Nat) ≠ [] ∧
      (PPTGen.distribute_paragraphs_to_slides [5, 3, 5] 8).length ≤
        ([5, 3, 5] : List Int).length :=
  ⟨(claim9_nonempty [5, 3, 5] 8).1 [2] (by decide),
   (claim9_nonempty [5, 3, 5] 8).2⟩

/-- C10: within each slide the indices appear in placement order, so their
weights are non-increasing from the slide's first index to its last; and the
weights of the slides' first items are non-increasing across slides in
creation order. -/
theorem claim10_order (w : List Int) (cap : Int) :
    (∀ s ∈ PPTGen.distribute_paragraphs_to_slides w cap,
      s.Pairwise (PPTGen.weightGE w)) ∧
    (PPTGen.distribute_paragraphs_to_slides w cap).Pairwise
      (fun s t => PPTGen.weightGE w s.headI t.headI) := by
  have hinv := PPTGen.packInv_packState w cap
  have hsorted := PPTGen.sortedIndices_sorted w
  constructor
  · intro s hs
    exact List.Pairwise.sublist (hinv.2.1 s hs).2.1 hsorted
  · have hp : ((PPTGen.distribute_paragraphs_to_slides w cap).map
        (fun s => s.headI)).Pairwise (PPTGen.weightGE w) :=
      List.Pairwise.sublist hinv.2.2 hsorted
    exact List.pairwise_map.mp hp

theorem claim10_witness :
    ([0, 1] : List Nat).Pairwise (PPTGen.weightGE [5, 3, 5]) ∧
      (PPTGen.distribute_paragraphs_to_slides [5, 3, 5] 8).Pairwise
        (fun s t => PPTGen.weightGE [5, 3, 5] s.headI t.headI) :=
  ⟨(claim10_order [5, 3, 5] 8).1 [0, 1] (by decide),
   (claim10_order [5, 3, 5] 8).2⟩
